import Mathlib

/-!
Verification development for the `english-to-cron` crate: a shallow embedding
of its tokenizer (`src/str_to_cron/tokens.rs`), token classifier and per-kind
processors (`src/str_to_cron/action/*.rs`), context stack
(`src/str_to_cron/stack.rs`), schedule record and driver
(`src/str_to_cron/cron.rs`, `src/lib.rs`), together with theorems about the
claims of the specification.

Modelling conventions:
* Rust `String`/`&str` values are Lean `String`s; character-level work happens
  on `List Char` (`String.data`).
* Rust's case-insensitive regex matching (`(?i)`) is modelled with
  `Char.toLower`, which lowers ASCII letters; the patterns involved are all
  ASCII.
* The `regex` crate uses leftmost-first (first-alternative-wins, greedy)
  match semantics; every pattern of the crate is simple enough that the
  greedy deterministic matchers below realise those semantics exactly.
* Rust `i32` parsing of a digit string is modelled by `parseI32`, which fails
  (like `str::parse::<i32>`) when the value exceeds `i32::MAX`.
* The context stack (`Vec<Stack>`, accessed only through `push`/`pop`/
  `last`/`last_mut`/`clear`/`is_empty`) is modelled as a `List Stack` whose
  head is the top of the stack.
-/

/-- Lowercases every character of a character list (ASCII model of Rust's
`str::to_lowercase` / of `(?i)` matching). -/
def lowerData (cs : List Char) : List Char := cs.map Char.toLower

/-- Lowercases a string (model of Rust `str::to_lowercase`). -/
def lowerStr (s : String) : String := String.mk (lowerData s.data)

/-- If `pat` (given in lowercase) is a case-insensitive prefix of `cs`,
returns the remainder of `cs`; otherwise `none`. -/
def ciPrefixRest : List Char → List Char → Option (List Char)
  | [], rest => some rest
  | _ :: _, [] => none
  | p :: ps, c :: cs => if c.toLower = p then ciPrefixRest ps cs else none

/-- If `pat` is a (case-sensitive) prefix of `cs`, returns the remainder of
`cs`; otherwise `none`. -/
def csPrefixRest : List Char → List Char → Option (List Char)
  | [], rest => some rest
  | _ :: _, [] => none
  | p :: ps, c :: cs => if c = p then csPrefixRest ps cs else none

/-- Case-sensitive substring test (Rust `str::contains` and the
case-sensitive regexes used as substring searches). -/
def containsSub (pat : List Char) : List Char → Bool
  | [] => (csPrefixRest pat []).isSome
  | c :: rest => (csPrefixRest pat (c :: rest)).isSome || containsSub pat rest

/-- Case-insensitive substring test (`(?i)` regexes used unanchored, as in
the classifier's `is_match` calls); `pat` is given in lowercase. -/
def ciContainsSub (pat : List Char) : List Char → Bool
  | [] => (ciPrefixRest pat []).isSome
  | c :: rest => (ciPrefixRest pat (c :: rest)).isSome || ciContainsSub pat rest

/-- True when some member of `pats` occurs case-insensitively in `cs`
(`is_match` of an unanchored case-insensitive alternation of literals). -/
def ciContainsAny (pats : List String) (cs : List Char) : Bool :=
  pats.any fun p => ciContainsSub p.data cs

/-- Replaces every (leftmost, non-overlapping) occurrence of `pat` by `repl`,
as Rust's `str::replace`. Fuel-driven; `replaceAll` supplies enough fuel. -/
def replaceAllAux (pat repl : List Char) : Nat → List Char → List Char
  | 0, cs => cs
  | _ + 1, [] => []
  | fuel + 1, c :: rest =>
    match csPrefixRest pat (c :: rest) with
    | some rest2 => repl ++ replaceAllAux pat repl fuel rest2
    | none => c :: replaceAllAux pat repl fuel rest

/-- Rust `str::replace` on strings. -/
def replaceAll (s pat repl : String) : String :=
  String.mk (replaceAllAux pat.data repl.data (s.data.length + 1) s.data)

/-- Length of the maximal leading digit run (greedy `[0-9]+` / `[0-9]*`). -/
def digitRun (cs : List Char) : Nat := (cs.takeWhile Char.isDigit).length

/-- True when `cs` contains four consecutive digits somewhere (`[0-9]{4}`
matched unanchored). -/
def has4DigitRun : List Char → Bool
  | [] => false
  | c :: rest => decide (4 ≤ digitRun (c :: rest)) || has4DigitRun rest

/-- Removes leading and trailing whitespace (Rust `str::trim`). -/
def trimChars (cs : List Char) : List Char :=
  ((cs.dropWhile Char.isWhitespace).reverse.dropWhile Char.isWhitespace).reverse

/-- Rust `str::trim` on strings. -/
def trimStr (s : String) : String := String.mk (trimChars s.data)

/-- Removes every trailing comma (Rust `str::trim_end_matches(',')`). -/
def trimEndCommas (s : String) : String :=
  String.mk ((s.data.reverse.dropWhile (· = ',')).reverse)

/-- Substring test on strings, case-sensitive (Rust `String::contains`). -/
def strContains (s pat : String) : Bool := containsSub pat.data s.data

/-- Numeric value of a digit string. -/
def natOfDigits (cs : List Char) : Nat :=
  cs.foldl (fun a c => a * 10 + (c.toNat - '0'.toNat)) 0

/-- Model of `str::parse::<i32>` applied to the digit strings produced by the
crate's regex captures: succeeds exactly on nonempty all-digit strings whose
value fits in an `i32`. -/
def parseI32 (cs : List Char) : Option Int :=
  if cs.isEmpty then none
  else if cs.all Char.isDigit then
    if natOfDigits cs ≤ 2147483647 then some (Int.ofNat (natOfDigits cs)) else none
  else none

/-! ### Matchers

A `Matcher` tries to recognise a pattern at the start of a character list and
reports how many characters it consumed. These realise the leftmost-first,
greedy semantics of the `regex` crate for the patterns of `tokens.rs`. -/

/-- A prefix matcher: number of characters consumed, or `none`. -/
def Matcher : Type := List Char → Option Nat

/-- Case-insensitive literal (inside the `(?i)` composite pattern). -/
def litCI (pat : String) : Matcher := fun cs =>
  match ciPrefixRest pat.data cs with
  | some _ => some pat.data.length
  | none => none

/-- First-alternative-wins alternation of matchers (`a|b|c`). -/
def firstOf : List Matcher → Matcher
  | [] => fun _ => none
  | m :: ms => fun cs =>
    match m cs with
    | some n => some n
    | none => firstOf ms cs

/-- Alternation of case-insensitive literals, in the given order. -/
def firstOfLits (pats : List String) : Matcher := firstOf (pats.map litCI)

/-- Sequencing of matchers (concatenation of regex fragments). -/
def mseq (m1 m2 : Matcher) : Matcher := fun cs =>
  match m1 cs with
  | none => none
  | some n =>
    match m2 (cs.drop n) with
    | none => none
    | some k => some (n + k)

/-- Greedy optional fragment (`(...)?`): consumes the fragment if it matches,
otherwise nothing. -/
def mopt (m : Matcher) : Matcher := fun cs => some ((m cs).getD 0)

/-- Single literal character. -/
def mChar (c : Char) : Matcher := fun cs =>
  match cs with
  | c2 :: _ => if c2 = c then some 1 else none
  | [] => none

/-- Greedy `[0-9]+`. -/
def mDigits : Matcher := fun cs =>
  if digitRun cs = 0 then none else some (digitRun cs)

/-- Greedy `[0-9]{4}[0-9]*`: a maximal digit run of length at least four. -/
def mDigits4 : Matcher := fun cs =>
  if 4 ≤ digitRun cs then some (digitRun cs) else none

/-- Greedy one-or-more repetition of an iteration matcher; returns the total
number of characters consumed (0 when the first iteration fails). The guard
on zero-width iterations keeps the recursion well-founded; every iteration
matcher used below consumes at least one character. -/
def runPlusAux (iter : Matcher) : Nat → List Char → Nat
  | 0, _ => 0
  | fuel + 1, cs =>
    match iter cs with
    | some n => if n = 0 then 0 else n + runPlusAux iter fuel (cs.drop n)
    | none => 0

/-- Greedy `(...)+` as a matcher. -/
def mPlus (iter : Matcher) : Matcher := fun cs =>
  let n := runPlusAux iter (cs.length + 1) cs
  if n = 0 then none else some n

/-- Fragment `(?: ?and)?,? ?` that chains name runs in `RE_TOKENS` and in the
day/month classifier patterns. -/
def optAndCommaSpace : Matcher :=
  mseq (mopt (firstOf [litCI " and", litCI "and"]))
    (mseq (mopt (mChar ',')) (mopt (mChar ' ')))

/-- Month-name alternatives of `RE_TOKENS` (and of the month classifier), in
source order: full names first, then abbreviations. -/
def monthNameList : List String :=
  ["january", "february", "march", "april", "may", "june", "july", "august",
   "september", "october", "november", "december",
   "jan", "feb", "mar", "apr", "may", "jun", "jul", "aug", "sept", "oct",
   "nov", "dec"]

/-- Day-name alternatives of `RE_TOKENS` (and of the day classifier), in
source order. -/
def dayNameList : List String :=
  ["monday", "tuesday", "wednesday", "thursday", "friday", "saturday",
   "sunday", "weekend", "mon", "tue", "wed", "thu", "fri", "sat", "sun"]

/-- One iteration of the month run `(?:months?|NAME(?: ?and)?,? ?)+` of
`RE_TOKENS`. -/
def monthIterTok : Matcher :=
  firstOf [litCI "months", litCI "month",
    mseq (firstOfLits monthNameList) optAndCommaSpace]

/-- One iteration of the day run `(?:days?|NAME(?: ?and)?,? ?)+` of
`RE_TOKENS`. -/
def dayIterTok : Matcher :=
  firstOf [litCI "days", litCI "day",
    mseq (firstOfLits dayNameList) optAndCommaSpace]

/-- One iteration of the year run `(?:[0-9]{4}[0-9]*(?: ?and)?,? ?)+`. -/
def yearIterTok : Matcher := mseq mDigits4 optAndCommaSpace

/-- Tail `[0-9]+ ?(?:am|pm)` of the am/pm clock alternative. -/
def clockTailTok : Matcher :=
  mseq mDigits (mseq (mopt (mChar ' ')) (firstOfLits ["am", "pm"]))

/-- Clock alternative `(?:[0-9]+:)?[0-9]+ ?(?:am|pm)` of `RE_TOKENS`: the
optional hour group is greedy, so the grouped branch is preferred. -/
def clockAmPmTok : Matcher :=
  firstOf [mseq mDigits (mseq (mChar ':') clockTailTok), clockTailTok]

/-- Alternative `[0-9]+:[0-9]+` of `RE_TOKENS`. -/
def clock24Tok : Matcher := mseq mDigits (mseq (mChar ':') mDigits)

/-- The ordered alternatives of `RE_TOKENS` in `tokens.rs`. -/
def tokenAlternatives : List Matcher :=
  [firstOfLits ["seconds", "second", "secs", "sec"],
   firstOfLits ["hours", "hour", "hrs", "hr"],
   firstOfLits ["minutes", "minute", "mins", "min"],
   mPlus monthIterTok,
   mseq mDigits (firstOfLits ["th", "nd", "rd", "st"]),
   clockAmPmTok,
   clock24Tok,
   firstOfLits ["noon", "midnight"],
   mPlus dayIterTok,
   mPlus yearIterTok,
   mDigits,
   litCI "only on",
   firstOfLits ["to", "through", "ending", "end", "and"],
   firstOfLits ["between", "starting", "start"]]

/-- The composite token pattern at one position. -/
def matchToken : Matcher := firstOf tokenAlternatives

/-- Scanning loop of `Regex::find_iter` over `RE_TOKENS`: at each position try
the composite pattern; on a match emit the trimmed matched slice and resume
after it, otherwise advance one character. -/
def scanAux : Nat → List Char → List String
  | 0, _ => []
  | _ + 1, [] => []
  | fuel + 1, c :: rest =>
    match matchToken (c :: rest) with
    | some n =>
      if n = 0 then scanAux fuel rest
      else trimStr (String.mk ((c :: rest).take n)) :: scanAux fuel ((c :: rest).drop n)
    | none => scanAux fuel rest

/-- Model of `Tokenizer::run` in `tokens.rs`: preprocessing (`", " → " and "`,
collapsing `" and only on"`) followed by the scan. -/
def tokenizerRun (input : String) : List String :=
  let p1 := replaceAll input ", " " and "
  let p2 :=
    if containsSub "only on".data p1.data then replaceAll p1 " and only on" " only on"
    else p1
  scanAux (p2.data.length + 1) p2.data

/-! ### Data model (`action/mod.rs`, `stack.rs`, `cron.rs`, `errors.rs`) -/

/-- The twelve token kinds of `action/mod.rs`. -/
inductive Kind where
  | frequencyWith
  | frequencyOnly
  | clockTime
  | day
  | secund
  | minute
  | hour
  | month
  | year
  | rangeStart
  | rangeEnd
  | onlyOn
deriving DecidableEq, Repr

/-- Numeric start/end pair (`StartEnd` in `stack.rs`); `end_` models the Rust
field `end`, which is a Lean keyword. -/
structure StartEnd where
  start : Option Int
  end_ : Option Int
deriving DecidableEq, Repr

/-- String start/end pair (`StartEndString` in `stack.rs`). -/
structure StartEndString where
  start : Option String
  end_ : Option String
deriving DecidableEq, Repr

/-- A context-stack entry (`Stack` in `stack.rs`). The defaults are those of
`Stack::builder`. The two flags `is_and_connector` and `is_between_range` are
assigned by `range_end.rs` and `range_start.rs` (the provided `stack.rs`
omits their declarations); they are never read, so they affect nothing. -/
structure Stack where
  owner : Kind
  frequency : Option Int := none
  frequency_end : Option Int := none
  frequency_start : Option Int := none
  min : Option StartEnd := none
  hour : Option StartEnd := none
  day : Option StartEndString := none
  month : Option StartEndString := none
  year : Option StartEnd := none
  day_of_week : Option String := none
  is_and_connector : Bool := false
  is_between_range : Bool := false
deriving DecidableEq, Repr

/-- Model of `Stack::frequency_to_string`. -/
def Stack.frequency_to_string (s : Stack) : String :=
  match s.frequency with
  | some a => toString a
  | none => "*"

/-- The seven output fields (`Syntax` in `cron.rs`, renamed because `Syntax`
collides with Lean core); defaults are those of `Syntax::default`. -/
structure ScheduleRecord where
  seconds : String := "0"
  min : String := "*"
  hour : String := "*"
  day_of_month : String := "*"
  day_of_week : String := "?"
  month : String := "*"
  year : String := "*"
deriving DecidableEq, Repr

/-- Interpreter state (`Cron` in `cron.rs`): the `syntax` field is named
`record` here (see `ScheduleRecord`); the stack list's head is its top. -/
structure Cron where
  record : ScheduleRecord := {}
  stack : List Stack := []
deriving DecidableEq, Repr

/-- The error taxonomy of `errors.rs`. -/
inductive Error where
  | invalidInput
  | capture (state token : String)
  | parseToNumber (state value : String)
  | incorrectValue (state error : String)
deriving DecidableEq, Repr

/-- Model of `impl Display for Cron`: seven trimmed fields joined by single
spaces, in the order seconds, min, hour, day_of_month, month, day_of_week,
year. -/
def cronDisplay (c : Cron) : String :=
  trimStr c.record.seconds ++ " " ++ trimStr c.record.min ++ " " ++
    trimStr c.record.hour ++ " " ++ trimStr c.record.day_of_month ++ " " ++
    trimStr c.record.month ++ " " ++ trimStr c.record.day_of_week ++ " " ++
    trimStr c.record.year

/-! ### Token classifier (the `try_from_token` functions of `action/*.rs`) -/

/-- Classifier for `FrequencyWith` (`frequency_with.rs`,
`^[0-9]+(th|nd|rd|st)$`, case-sensitive). -/
def frequencyWithMatch (token : String) : Bool :=
  let cs := token.data
  let n := digitRun cs
  decide (0 < n) &&
    (cs.drop n = "th".data || cs.drop n = "nd".data ||
     cs.drop n = "rd".data || cs.drop n = "st".data)

/-- Classifier for `FrequencyOnly` (`frequency_only.rs`, `^[0-9]+$`). -/
def frequencyOnlyMatch (token : String) : Bool :=
  !token.data.isEmpty && token.data.all Char.isDigit

/-- Full-match of `[0-9]+ *(AM|PM)$` starting at `cs` (case-insensitive). -/
def clockTailFull (cs : List Char) : Bool :=
  let n := digitRun cs
  decide (0 < n) &&
    (let r := (cs.drop n).dropWhile (· = ' ')
     lowerData r = "am".data || lowerData r = "pm".data)

/-- Full-match of `^([0-9]+:)?[0-9]+ *(AM|PM)$` (first alternative of the
clock-time classifier). -/
def fullClockAmPm (cs : List Char) : Bool :=
  (let n := digitRun cs
   decide (0 < n) &&
     (match cs.drop n with
      | ':' :: r => clockTailFull r
      | _ => false)) ||
  clockTailFull cs

/-- Full-match of `^([0-9]+:[0-9]+)$` (second alternative of the clock-time
classifier). -/
def fullClock24 (cs : List Char) : Bool :=
  let n := digitRun cs
  decide (0 < n) &&
    (match cs.drop n with
     | ':' :: r => decide (0 < digitRun r) && decide (digitRun r = r.length)
     | _ => false)

/-- Classifier for `ClockTime` (`clock_time.rs` `RE_MATCH`): the first two
alternatives are anchored; `(noon|midnight)` is an unanchored
case-insensitive substring search. -/
def clockTimeMatch (token : String) : Bool :=
  fullClockAmPm token.data || fullClock24 token.data ||
    ciContainsSub "noon".data token.data || ciContainsSub "midnight".data token.data

/-- Greedy full-string match of a one-or-more repetition. -/
def fullRun (iter : Matcher) (cs : List Char) : Bool :=
  let n := runPlusAux iter (cs.length + 1) cs
  decide (0 < n) && decide (n = cs.length)

/-- One iteration of the day-name run in the day classifier (`day.rs`
`RE_MATCH`; unlike the tokenizer run it has no `days?` branch). -/
def dayIterCls : Matcher := mseq (firstOfLits dayNameList) optAndCommaSpace

/-- Classifier for `Day` (`day.rs`,
`^((days|day)|((NAME( ?and)?,? ?)+))$`). -/
def dayMatch (token : String) : Bool :=
  lowerStr token = "days" || lowerStr token = "day" || fullRun dayIterCls token.data

/-- One iteration of the month-name run in the month classifier
(`month.rs` `RE_MATCH`). -/
def monthIterCls : Matcher := mseq (firstOfLits monthNameList) optAndCommaSpace

/-- Classifier for `Month` (`month.rs`,
`^((months|month)|((NAME( ?and)?,? ?)+))$`). -/
def monthMatch (token : String) : Bool :=
  lowerStr token = "months" || lowerStr token = "month" ||
    fullRun monthIterCls token.data

/-- Classifier for `Secund` (`seconds.rs` `RE_MATCH`, unanchored). -/
def secundMatch (token : String) : Bool :=
  ciContainsAny ["seconds", "second", "sec", "secs"] token.data

/-- Classifier for `Minute` (`minute.rs` `RE_MATCH`, unanchored). -/
def minuteMatch (token : String) : Bool :=
  ciContainsAny ["minutes", "minute", "mins", "min"] token.data

/-- Classifier for `Hour` (`hour.rs` `RE_MATCH`, unanchored). -/
def hourMatch (token : String) : Bool :=
  ciContainsAny ["hour", "hrs", "hours"] token.data

/-- Classifier for `Year` (`year.rs` `RE_MATCH`, unanchored:
`((years|year)|([0-9]{4}[0-9]*(( ?and)?,? ?))+)`). -/
def yearMatch (token : String) : Bool :=
  ciContainsSub "years".data token.data || ciContainsSub "year".data token.data ||
    has4DigitRun token.data

/-- Classifier for `RangeStart` (`range_start.rs` `RE_MATCH`, unanchored). -/
def rangeStartMatch (token : String) : Bool :=
  ciContainsAny ["between", "starting", "start"] token.data

/-- Classifier for `RangeEnd` (`range_end.rs` `RE_MATCH`, unanchored). -/
def rangeEndMatch (token : String) : Bool :=
  ciContainsAny ["to", "through", "ending", "end", "and"] token.data

/-- Model of `action::try_from_token`: the twelve recognizers tried in the
fixed order of `Kind::iterator`. -/
def try_from_token (token : String) : Option Kind :=
  if frequencyWithMatch token then some .frequencyWith
  else if frequencyOnlyMatch token then some .frequencyOnly
  else if clockTimeMatch token then some .clockTime
  else if dayMatch token then some .day
  else if secundMatch token then some .secund
  else if minuteMatch token then some .minute
  else if hourMatch token then some .hour
  else if monthMatch token then some .month
  else if yearMatch token then some .year
  else if rangeStartMatch token then some .rangeStart
  else if rangeEndMatch token then some .rangeEnd
  else if lowerStr token = "only on" then some .onlyOn
  else none

/-! ### Per-kind processors (`action/*.rs`) -/

/-- Tag for the am/pm branch of `clock_time.rs` (`contains("pm")` is checked
before `contains("am")`, both on the lowercased token). -/
inductive Meridiem where
  | pm
  | am
  | plain
deriving DecidableEq, Repr

/-- Which meridiem branch of `clock_time::process` applies to a token. -/
def meridiemOf (token : String) : Meridiem :=
  let lt := lowerData token.data
  if containsSub "pm".data lt then .pm
  else if containsSub "am".data lt then .am
  else .plain

/-- The 12-hour to 24-hour correction of `clock_time::process` (the
`match hour.cmp(&12)` blocks): with PM an hour below 12 gains 12, 12 stays,
above 12 errors; with AM 12 becomes 0, above 12 errors, below 12 stays. -/
def amPmAdjust : Meridiem → Int → Except Error Int
  | .pm, h =>
    if h < 12 then .ok (h + 12)
    else if 12 < h then
      .error (.incorrectValue "clock_time"
        ("please correct the time before PM. value: " ++ toString h))
    else .ok h
  | .am, h =>
    if h = 12 then .ok 0
    else if 12 < h then
      .error (.incorrectValue "clock_time"
        ("please correct the time before AM. value: " ++ toString h))
    else .ok h
  | .plain, h => .ok h

/-- Leading digit run of a token (`RE_HOUR` = `^[0-9]+` found in
`clock_time.rs`), or `none` when the token does not start with a digit. -/
def clockHourStr (cs : List Char) : Option (List Char) :=
  if digitRun cs = 0 then none else some (cs.take (digitRun cs))

/-- Digits following the first colon-with-digits of a token: `RE_MINUTE` =
`:[0-9]+` found leftmost, then `split(':').nth(1)` of the matched slice. -/
def findColonDigits : List Char → Option (List Char)
  | [] => none
  | c :: rest =>
    if c = ':' ∧ 0 < digitRun rest then some (rest.take (digitRun rest))
    else findColonDigits rest

/-- Hour extraction of `clock_time::process`: the leading digit run parsed
as an `i32` (0 when the token does not start with a digit). In
`clockHourMinute` below, `RE_NOON_MIDNIGHT` and the `token == "noon"`
comparison are case-sensitive, as in the source. -/
def clockHourOf (cs : List Char) : Except Error Int :=
  match clockHourStr cs with
  | none => .ok 0
  | some ds =>
    match parseI32 ds with
    | some v => .ok v
    | none => .error (.parseToNumber "clock_time" (String.mk ds))

/-- Minute extraction of `clock_time::process`: the digits after the first
colon (0 when absent), rejected with `IncorrectValue` when at least 60. -/
def clockMinuteOf (cs : List Char) : Except Error Int :=
  match findColonDigits cs with
  | none => .ok 0
  | some ds =>
    match parseI32 ds with
    | some v =>
      if 60 ≤ v then
        .error (.incorrectValue "clock_time"
          ("minute " ++ toString v ++ " should be lower or equal to 60"))
      else .ok v
    | none => .error (.parseToNumber "clock_time" (String.mk ds))

/-- Hour/minute extraction, 12-hour correction and noon/midnight override of
`clock_time::process` (everything before the stack handling). -/
def clockHourMinute (token : String) : Except Error (Int × Int) :=
  match clockHourOf token.data with
  | .error e => .error e
  | .ok hour0 =>
    match clockMinuteOf token.data with
    | .error e => .error e
    | .ok minute0 =>
      match amPmAdjust (meridiemOf token) hour0 with
      | .error e => .error e
      | .ok hour1 =>
        if containsSub "noon".data token.data ||
            containsSub "midnight".data token.data then
          .ok (if token = "noon" then (12, 0) else (0, 0))
        else
          .ok (hour1, minute0)

/-- Model of `clock_time::process`: extraction and correction via
`clockHourMinute`, then the stack cases. In the unequal range-end case the
source mutates a clone of `element.hour` (a no-op) before writing the hour
field, so the entry is left unchanged there. -/
def clock_time_process (token : String) (cron : Cron) : Except Error Cron :=
  match clockHourMinute token with
  | .error e => .error e
  | .ok (hour, minute) =>
  match cron.stack with
  | e :: rest =>
    if e.owner = .rangeStart then
      .ok { cron with stack := { e with hour := some ⟨some hour, none⟩ } :: rest }
    else if e.owner = .rangeEnd then
      match e.hour with
      | some eh =>
        if eh.start = some hour then
          .ok { record := { cron.record with
                   hour := toString hour ++ "-" ++ toString hour },
                 stack := { e with min := some ⟨some hour, some hour⟩ } :: rest }
        else
          .ok { cron with record := { cron.record with
                   hour := toString (eh.start.getD 0) ++ "-" ++ toString hour } }
      | none => .ok cron
    else
      .ok { record := { cron.record with
               min := toString minute, hour := toString hour },
             stack := { owner := .clockTime,
                        hour := some ⟨some hour, none⟩,
                        min := some ⟨some minute, none⟩ } :: cron.stack }
  | [] =>
    .ok { record := { cron.record with
             min := toString minute, hour := toString hour },
           stack := [{ owner := .clockTime,
                       hour := some ⟨some hour, none⟩,
                       min := some ⟨some minute, none⟩ }] }

/-- All matches of an ordered alternation of case-insensitive literal
patterns, scanned left to right without overlap (`find_iter`); for each match
the canonical uppercase form is emitted (the source uppercases the matched
slice, which for a case-insensitive literal match is exactly the uppercase
pattern). Pairs are (lowercase pattern, uppercase emission). -/
def findAllPats (pats : List (String × String)) : Nat → List Char → List String
  | 0, _ => []
  | _ + 1, [] => []
  | fuel + 1, c :: rest =>
    match firstOf (pats.map fun p => litCI p.1) (c :: rest) with
    | some n =>
      (match (pats.find? fun p => (ciPrefixRest p.1.data (c :: rest)).isSome).map
          Prod.snd with
       | some u => [u]
       | none => []) ++
        (if n = 0 then findAllPats pats fuel rest
         else findAllPats pats fuel ((c :: rest).drop n))
    | none => findAllPats pats fuel rest

/-- Pattern/emission pairs of `RE_WEEKDAYS` in `day.rs`, in source order. -/
def weekdayPats : List (String × String) :=
  [("mon", "MON"), ("tue", "TUE"), ("wed", "WED"), ("thu", "THU"),
   ("fri", "FRI"), ("sat", "SAT"), ("sun", "SUN"), ("weekend", "WEEKEND")]

/-- Uppercased matches of `RE_WEEKDAYS.find_iter` over a token. -/
def extractWeekdays (token : String) : List String :=
  findAllPats weekdayPats (token.data.length + 1) token.data

/-- Pattern/emission pairs of `RE_MONTHS_ABBREVIATION` in `month.rs`
(three-letter forms, including `SEP`), in source order. -/
def monthAbbrevPats : List (String × String) :=
  [("jan", "JAN"), ("feb", "FEB"), ("mar", "MAR"), ("apr", "APR"),
   ("may", "MAY"), ("jun", "JUN"), ("jul", "JUL"), ("aug", "AUG"),
   ("sep", "SEP"), ("oct", "OCT"), ("nov", "NOV"), ("dec", "DEC")]

/-- Uppercased matches of `RE_MONTHS_ABBREVIATION.find_iter` over a token. -/
def extractMonths (token : String) : List String :=
  findAllPats monthAbbrevPats (token.data.length + 1) token.data

/-- The `WEEK_DAYS` constant of `day.rs`. -/
def WEEK_DAYS : List String := ["MON", "TUE", "WED", "THU", "FRI", "SAT", "SUN"]

/-- The `MONTHS` constant of `month.rs`. -/
def MONTHS : List String :=
  ["JAN", "FEB", "MAR", "APR", "MAY", "JUN", "JUL", "AUG", "SEP", "OCT",
   "NOV", "DEC"]

/-- The day-of-week list construction of `day.rs` (the loop over `WEEK_DAYS`
appending `"{day},"` when the day was matched and is not yet contained in the
accumulated string, then the `WEEKEND` expansion appending the missing ones
of SAT, SUN, then `trim_end_matches(',')`). The accumulator starts from the
freshly cleared `day_of_week` field, i.e. the empty string. -/
def buildDayString (days : List String) : String :=
  let s1 := WEEK_DAYS.foldl
    (fun acc d => if days.contains d && !(strContains acc d) then acc ++ d ++ "," else acc)
    ""
  let s2 :=
    if days.contains "WEEKEND" then
      ["SAT", "SUN"].foldl
        (fun acc d => if strContains acc d then acc else acc ++ d ++ ",") s1
    else s1
  trimEndCommas s2

/-- The month list construction of `month.rs` (loop over `MONTHS` with
`push_str("{month},")` under the same contains tests, then
`trim_end_matches(',')`). -/
def buildMonthString (months : List String) : String :=
  trimEndCommas (MONTHS.foldl
    (fun acc m => if months.contains m && !(strContains acc m) then acc ++ m ++ "," else acc)
    "")

/-- Test of `RE_DAY` in `day.rs` (`^(day|days)$`, case-insensitive). -/
def dayUnit (token : String) : Bool :=
  lowerStr token = "day" || lowerStr token = "days"

/-- Model of `day::process`. -/
def day_process (token : String) (cron : Cron) : Except Error Cron :=
  if dayUnit token then
    let r1 := { cron.record with day_of_week := "?" }
    let r2 := if r1.min = "*" then { r1 with min := "0" } else r1
    let r3 := if r2.hour = "*" then { r2 with hour := "0" } else r2
    let (r4, st4) :=
      match cron.stack with
      | e :: rest =>
        if e.owner = .frequencyOnly then
          ({ r3 with day_of_month := "*/" ++ e.frequency_to_string }, rest)
        else if e.owner = .frequencyWith then
          ({ r3 with day_of_month := e.frequency_to_string }, rest)
        else
          ({ r3 with day_of_month := "*" }, e :: rest)
      | [] => ({ r3 with day_of_month := "*/1" }, [])
    .ok { record := r4,
           stack := { owner := .day, day_of_week := some r4.day_of_week } :: st4 }
  else
    let days := extractWeekdays token
    if days.isEmpty then
      .error (.incorrectValue "day" ("value " ++ token ++ " is not a weekend format"))
    else
      let r0 := { cron.record with day_of_week := "" }
      match cron.stack with
      | e :: rest =>
        if e.owner = .rangeStart then
          .ok { record := r0,
                 stack := { e with
                   day := some ⟨days.head?, e.day.bind StartEndString.end_⟩ } :: rest }
        else if e.owner = .rangeEnd then
          let data : StartEndString := ⟨e.day.bind StartEndString.start, days.head?⟩
          let r1 :=
            match data.start, data.end_ with
            | some s, some en => { r0 with day_of_week := r0.day_of_week ++ s ++ "-" ++ en }
            | _, _ => r0
          .ok { record := { r1 with day_of_month := "?" }, stack := rest }
        else if e.owner = .onlyOn then
          match days.head? with
          | some d =>
            .ok { record := { r0 with day_of_week := d, day_of_month := "?" },
                   stack := rest }
          | none =>
            .error (.incorrectValue "day"
              "Expected at least one day in 'only on' syntax but found none")
        else
          let r1 := { r0 with day_of_week := buildDayString days, day_of_month := "?" }
          .ok { record := r1,
                 stack := [{ owner := .day, day_of_week := some r1.day_of_week }] }
      | [] =>
        let r1 := { r0 with day_of_week := buildDayString days, day_of_month := "?" }
        .ok { record := r1,
               stack := [{ owner := .day, day_of_week := some r1.day_of_week }] }

/-- Test of `RE_MONTH` in `month.rs` (`^(month|months)$`, case-insensitive). -/
def monthUnit (token : String) : Bool :=
  lowerStr token = "month" || lowerStr token = "months"

/-- Model of `month::process`. -/
def month_process (token : String) (cron : Cron) : Except Error Cron :=
  if monthUnit token then
    let (r1, st1) :=
      match cron.stack with
      | e :: rest =>
        if e.owner = .frequencyOnly then
          ({ cron.record with month := e.frequency_to_string }, rest)
        else if e.owner = .frequencyWith then
          ({ cron.record with month := e.frequency_to_string }, rest)
        else if e.owner = .rangeEnd then
          let dm := toString (e.frequency_start.getD 0) ++ "," ++
            toString (e.frequency_end.getD 0)
          ({ cron.record with day_of_month := dm }, e :: rest)
        else
          ({ cron.record with month := "*" }, e :: rest)
      | [] => ({ cron.record with month := "*" }, [])
    .ok { record := r1,
           stack := { owner := .month, month := some ⟨some r1.month, none⟩ } :: st1 }
  else
    let months := extractMonths token
    if months.isEmpty then
      .error (.incorrectValue "month" ("value " ++ token ++ " is not a month format"))
    else
      let r0 := { cron.record with month := "" }
      let finish : ScheduleRecord → List Stack → Except Error Cron := fun r st =>
        let r1 := { r with month := buildMonthString months }
        .ok { record := r1,
               stack := { owner := .month, month := some ⟨some r1.month, none⟩ } :: st }
      match cron.stack with
      | e :: rest =>
        if e.owner = .frequencyOnly ∨ e.owner = .frequencyWith then
          finish { r0 with day_of_month := e.frequency_to_string } rest
        else if e.owner = .rangeStart then
          .ok { record := r0, stack := rest }
        else if e.owner = .rangeEnd then
          let r1 :=
            match e.frequency_end with
            | some fe =>
              let rA := { r0 with day_of_week := "?" }
              (match e.frequency_start with
               | some fs =>
                 { rA with day_of_month := toString fs ++ "-" ++ toString fe }
               | none => rA)
            | none => r0
          let data : StartEndString := ⟨e.month.bind StartEndString.start, months.head?⟩
          let r2 :=
            match data.start, data.end_ with
            | some s, some en => { r1 with month := s ++ "-" ++ en }
            | _, _ => r1
          .ok { record := r2, stack := rest }
        else
          finish r0 rest
      | [] => finish r0 []

/-- Test of `RE_MINUTES` in `minute.rs` (`(?i)^(minutes|minute|mins|min)$`). -/
def minuteUnit (token : String) : Bool :=
  lowerStr token = "minutes" || lowerStr token = "minute" ||
    lowerStr token = "mins" || lowerStr token = "min"

/-- Model of `minute::process` (infallible). In the range-end case the source
clears `frequency_end` before testing `(frequency_start, frequency_end)`, so
the range write to the min field is dead code; the translation keeps the
test verbatim. -/
def minute_process (token : String) (cron : Cron) : Cron :=
  if minuteUnit token then
    match cron.stack with
    | e :: rest =>
      if e.owner = .frequencyOnly then
        { record := { cron.record with min := "0/" ++ e.frequency_to_string },
          stack := { owner := .minute, min := some ⟨e.frequency, none⟩ } :: rest }
      else if e.owner = .frequencyWith then
        { record := { cron.record with min := e.frequency_to_string },
          stack := { owner := .minute, min := some ⟨e.frequency, none⟩ } :: rest }
      else if e.owner = .rangeStart then
        { cron with stack := { e with min := some ⟨e.frequency_start, none⟩ } :: rest }
      else if e.owner = .rangeEnd then
        let e1 := { e with min := some ⟨e.frequency_start, e.frequency_end⟩,
                           frequency_end := none }
        let r1 :=
          match e1.frequency_start, e1.frequency_end with
          | some fs, some fe =>
            { cron.record with min := toString fs ++ "-" ++ toString fe }
          | _, _ => cron.record
        { record := r1, stack := e1 :: rest }
      else cron
    | [] => cron
  else cron

/-- Test of `RE_HOUR` in `hour.rs` (`^(hour|hrs|hours)$`, case-sensitive). -/
def hourUnit (token : String) : Bool :=
  token = "hour" || token = "hrs" || token = "hours"

/-- Model of `hour::process` (infallible). Mirrors the source faithfully,
including its slips: the frequency branches push an entry whose owner is
`Kind::Minute`; the range-start branch writes `element.min` (not
`element.hour`); the range-end branch clears `frequency_end` before testing
it, making the range write to the hour field dead code. -/
def hour_process (token : String) (cron : Cron) : Cron :=
  if hourUnit token then
    match cron.stack with
    | e :: rest =>
      if e.owner = .frequencyOnly then
        { record := { cron.record with hour := "0/" ++ e.frequency_to_string },
          stack := { owner := .minute, hour := some ⟨e.frequency, none⟩ } :: rest }
      else if e.owner = .frequencyWith then
        { record := { cron.record with hour := e.frequency_to_string },
          stack := { owner := .minute, hour := some ⟨e.frequency, none⟩ } :: rest }
      else if e.owner = .rangeStart then
        { cron with stack := { e with min := some ⟨e.frequency_start, none⟩ } :: rest }
      else if e.owner = .rangeEnd then
        let e1 := { e with min := some ⟨e.frequency_start, e.frequency_end⟩,
                           frequency_end := none }
        let r1 :=
          match e1.frequency_start, e1.frequency_end with
          | some fs, some fe =>
            { cron.record with hour := toString fs ++ "-" ++ toString fe }
          | _, _ => cron.record
        { record := r1, stack := e1 :: rest }
      else cron
    | [] => cron
  else cron

/-- Test of `RE_SECUND` in `seconds.rs` (`^(seconds|second|sec|secs)$`,
case-sensitive). -/
def secondsUnit (token : String) : Bool :=
  token = "seconds" || token = "second" || token = "sec" || token = "secs"

/-- Model of `seconds::process` (infallible). -/
def seconds_process (token : String) (cron : Cron) : Cron :=
  if secondsUnit token then
    let (r1, st1) :=
      match cron.stack with
      | e :: rest =>
        if e.owner = .frequencyOnly then
          ({ cron.record with seconds := "0/" ++ e.frequency_to_string }, rest)
        else if e.owner = .frequencyWith then
          ({ cron.record with seconds := e.frequency_to_string }, rest)
        else (cron.record, e :: rest)
      | [] => ({ cron.record with seconds := "*" }, [])
    { record := r1, stack := { owner := .secund } :: st1 }
  else cron

/-- Model of `frequency_only::process` (the `panic!` branch of the source is
unreachable: it sits in the `else` of a `last_mut` on a nonempty vector). -/
def frequency_only_process (frequency : Int) (cron : Cron) : Cron :=
  match cron.stack with
  | e :: rest =>
    if e.owner = .rangeEnd then
      { cron with stack := { e with frequency_end := some frequency } :: rest }
    else if e.owner = .rangeStart then
      { cron with stack := { e with frequency_start := some frequency } :: rest }
    else
      { cron with stack :=
          { owner := .frequencyOnly, frequency := some frequency } :: cron.stack }
  | [] =>
    { cron with stack :=
        { owner := .frequencyOnly, frequency := some frequency } :: cron.stack }

/-- Model of `frequency_with::process`. -/
def frequency_with_process (token : String) (cron : Cron) : Except Error Cron := do
  let prefixLen := digitRun token.data
  if prefixLen = 0 then
    .error (.capture "frequency_with" token)
  else
    let ds := token.data.take prefixLen
    match parseI32 ds with
    | none => .error (.parseToNumber "frequency_with" (String.mk ds))
    | some frequency =>
      match cron.stack with
      | e :: rest =>
        if e.owner = .rangeEnd then
          .ok { cron with stack := { e with frequency_end := some frequency } :: rest }
        else if e.owner = .rangeStart then
          .ok { cron with stack := { e with frequency_start := some frequency } :: rest }
        else
          .ok { cron with stack :=
              { owner := .frequencyWith, frequency := some frequency,
                day_of_week := some cron.record.day_of_week } :: cron.stack }
      | [] =>
        .ok { cron with stack :=
            { owner := .frequencyWith, frequency := some frequency,
              day_of_week := some cron.record.day_of_week } :: cron.stack }

/-- Model of `range_start::process`. -/
def range_start_process (token : String) (cron : Cron) : Cron :=
  { cron with stack :=
      { owner := .rangeStart,
        is_between_range := ciContainsSub "between".data token.data } :: cron.stack }

/-- Model of `range_end::process`: mutates the top entry in place — records
the `and` connector flag, routes kind-specific pre-processing, and finally
flips the owner to `RangeEnd` unconditionally. With an empty stack it does
nothing. -/
def range_end_process (token : String) (cron : Cron) : Cron :=
  let is_and := ciContainsSub "and".data token.data
  match cron.stack with
  | [] => cron
  | e :: rest =>
    let e1 := { e with is_and_connector := is_and }
    let e2 :=
      match e1.owner with
      | .frequencyWith => { e1 with frequency_start := e1.frequency }
      | .frequencyOnly => { e1 with frequency_start := e1.frequency }
      | .day =>
        let d2 : StartEndString :=
          match e1.day with
          | some d => ⟨e1.day_of_week, d.end_⟩
          | none => ⟨e1.day_of_week, none⟩
        { e1 with day := some d2 }
      | _ => e1
    { cron with stack := { e2 with owner := .rangeEnd } :: rest }

/-- Test of `RE_YEARS` in `year.rs` (`(?i)^(years|year)$`). -/
def yearUnit (token : String) : Bool :=
  lowerStr token = "years" || lowerStr token = "year"

/-- All maximal digit runs of a token (`RE_NUMERIC.find_iter`). -/
def findDigitRuns : Nat → List Char → List (List Char)
  | 0, _ => []
  | _ + 1, [] => []
  | fuel + 1, c :: rest =>
    if c.isDigit then
      (c :: rest).take (digitRun (c :: rest)) ::
        findDigitRuns fuel ((c :: rest).drop (digitRun (c :: rest)))
    else findDigitRuns fuel rest

/-- The years extracted by `year::process`: digit runs that pass
`RE_YEAR_FORMAT` (`^[0-9]{4}$`, exactly four digits) and parse as `i32`. -/
def extractYears (token : String) : List Int :=
  (findDigitRuns (token.data.length + 1) token.data).filterMap fun ds =>
    if ds.length = 4 then parseI32 ds else none

/-- Model of `year::process`. -/
def year_process (token : String) (cron : Cron) : Except Error Cron :=
  if yearUnit token then
    let r1 :=
      match cron.stack with
      | e :: _ =>
        if e.owner = .frequencyOnly then
          { cron.record with year := "0/" ++ e.frequency_to_string }
        else if e.owner = .frequencyWith then
          { cron.record with year := e.frequency_to_string }
        else { cron.record with year := "*" }
      | [] => { cron.record with year := "?" }
    let st1 :=
      match cron.stack with
      | e :: rest => if e.owner = .frequencyOnly then rest else e :: rest
      | [] => []
    .ok { record := r1, stack := { owner := .year } :: st1 }
  else
    let years := extractYears token
    match cron.stack with
    | e :: rest =>
      if e.owner = .rangeStart then
        .ok { cron with stack :=
            { e with year := some ⟨years.head?, e.year.bind StartEnd.end_⟩ } :: rest }
      else if e.owner = .rangeEnd then
        let y : StartEnd := ⟨e.year.bind StartEnd.start, years.head?⟩
        .ok { record := { cron.record with
                 year := toString (y.start.getD 0) ++ "-" ++ toString (y.end_.getD 0) },
               stack := rest }
      else if years.isEmpty then
        .error (.incorrectValue "year" ("value " ++ token ++ " is not a year format"))
      else
        .ok { record := { cron.record with
                 year := trimEndCommas (years.foldl
                   (fun acc y => acc ++ toString y ++ ",") "") },
               stack := { owner := .year } :: e :: rest }
    | [] =>
      if years.isEmpty then
        .error (.incorrectValue "year" ("value " ++ token ++ " is not a year format"))
      else
        .ok { record := { cron.record with
                 year := trimEndCommas (years.foldl
                   (fun acc y => acc ++ toString y ++ ",") "") },
               stack := [{ owner := .year }] }

/-! ### Driver (`action/mod.rs` `Kind::process`, `cron.rs` `Cron::new`,
`lib.rs` `str_cron_syntax`) -/

/-- Model of `Kind::process` in `action/mod.rs` (the dispatcher; the
`FrequencyOnly` arm parses the token to an `i32` first, and the `OnlyOn` arm
does nothing). -/
def processKind (k : Kind) (token : String) (cron : Cron) : Except Error Cron :=
  match k with
  | .frequencyWith => frequency_with_process token cron
  | .frequencyOnly =>
    match parseI32 token.data with
    | some f => .ok (frequency_only_process f cron)
    | none => .error (.parseToNumber "frequency_only" token)
  | .clockTime => clock_time_process token cron
  | .day => day_process token cron
  | .secund => .ok (seconds_process token cron)
  | .minute => .ok (minute_process token cron)
  | .hour => .ok (hour_process token cron)
  | .month => month_process token cron
  | .year => year_process token cron
  | .rangeStart => .ok (range_start_process token cron)
  | .rangeEnd => .ok (range_end_process token cron)
  | .onlyOn => .ok cron

/-- The token-folding loop of `Cron::new`: classify each token and run its
processor, short-circuiting on the first error; unclassified tokens are
skipped. -/
def processTokens : List String → Cron → Except Error Cron
  | [], cron => .ok cron
  | t :: ts, cron =>
    match try_from_token t with
    | some k =>
      match processKind k t cron with
      | .ok cron2 => processTokens ts cron2
      | .error e => .error e
    | none => processTokens ts cron

/-- Model of `Cron::new`: tokenize, fail with `InvalidInput` on an empty
token list, otherwise fold the processors over the tokens. -/
def cronNew (text : String) : Except Error Cron :=
  let tokens := tokenizerRun text
  if tokens.isEmpty then .error .invalidInput
  else processTokens tokens {}

/-- Rendering of a successful parse through `Cron::new` and
`impl Display for Cron` (the path used by `Cron::from_str` and the
examples). -/
def parseEnglish (text : String) : Except Error String :=
  (cronNew text).map cronDisplay

/-- Modelled from the spec: `to_string`, re-exported by
`str_to_cron/mod.rs` from `cron.rs` but absent from the provided sources.
Per the specification's top-level driver contract it folds
classifier+processor over the already-produced token sequence in order,
short-circuiting on the first error, and renders the final record as the
space-joined 7-field string — exactly the token loop of `Cron::new` followed
by `Display`. -/
def to_string (tokens : List String) : Except Error String :=
  (processTokens tokens {}).map cronDisplay

/-- Model of `str_cron_syntax` in `lib.rs`. -/
def str_cron_syntax (input : String) : Except Error String :=
  let tokens := tokenizerRun input
  if tokens.isEmpty then .error .invalidInput
  else to_string tokens

/-! ### Specification forms used in theorem statements -/

/-- Comma-separated join, the shape the spec ascribes to list-valued
fields. -/
def commaJoin : List String → String
  | [] => ""
  | [x] => x
  | x :: l => x ++ "," ++ commaJoin l

/-- Concatenation of `"X,"` pieces: the shape of the accumulator strings
built by the day/month list loops before `trim_end_matches(',')`. -/
def joinC : List String → String
  | [] => ""
  | x :: l => x ++ "," ++ joinC l

/-- List-level counterpart of the day/month accumulation loop: walk the
canonical code list, appending each code that was named and not yet
present. -/
def addCodes (named : List String) : List String → List String → List String
  | [], l => l
  | d :: canon, l =>
    if named.contains d && !(l.contains d) then addCodes named canon (l ++ [d])
    else addCodes named canon l

/-- List-level counterpart of the `WEEKEND` expansion loop: append each code
not yet present. -/
def addCodesAll : List String → List String → List String
  | [], l => l
  | d :: canon, l =>
    if l.contains d then addCodesAll canon l else addCodesAll canon (l ++ [d])

/-- The day list actually produced for a set of extracted day names: the
explicitly named days in canonical order, followed by the `WEEKEND`
expansion (SAT, SUN) restricted to days not already listed. -/
def dayListCanon (days : List String) : List String :=
  let explicit := WEEK_DAYS.filter fun d => days.contains d
  explicit ++
    (if days.contains "WEEKEND" then
       ["SAT", "SUN"].filter fun d => !(explicit.contains d)
     else [])

/-- The canonical month list for a set of extracted month abbreviations. -/
def monthListCanon (months : List String) : List String :=
  MONTHS.filter fun m => months.contains m

/-- The day list the claim asserts: every named day (with `WEEKEND` expanded
to SAT and SUN), deduplicated and listed in canonical MON..SUN order. Stated
from the claim's words, for comparison with the list the code builds. -/
def dayListClaimed (days : List String) : List String :=
  WEEK_DAYS.filter fun d =>
    days.contains d || (days.contains "WEEKEND" && (d == "SAT" || d == "SUN"))

/-- Splits a character list at every occurrence of a separator (used to state
the seven-field output format; `String.splitOn`-like, but structurally
computable). -/
def splitAtSpaces : List Char → List (List Char)
  | [] => [[]]
  | c :: rest =>
    match splitAtSpaces rest with
    | [] => [[]]
    | g :: gs => if c = ' ' then [] :: g :: gs else (c :: g) :: gs

/-- The space-separated fields of a rendered cron string. -/
def fieldsOf (s : String) : List String := (splitAtSpaces s.data).map String.mk

/-! ### Theorems -/

/-- C1: the 12-hour to 24-hour conversion of `clock_time::process`
(`amPmAdjust`): with a PM tag an hour below 12 gains 12, an hour equal to 12
is unchanged, and an hour above 12 fails with `IncorrectValue`; with an AM
tag an hour equal to 12 becomes 0, an hour above 12 fails with
`IncorrectValue`, and an hour below 12 is unchanged; consequently, on a
nonnegative extracted hour, a conversion that succeeds under an AM or PM tag
never produces an hour outside 0–23. -/
theorem claim1_clock_conversion (h : Int) (hnn : 0 ≤ h) :
    (h < 12 → amPmAdjust .pm h = .ok (h + 12)) ∧
    (h = 12 → amPmAdjust .pm h = .ok h) ∧
    (12 < h → amPmAdjust .pm h = .error (.incorrectValue "clock_time"
      ("please correct the time before PM. value: " ++ toString h))) ∧
    (h = 12 → amPmAdjust .am h = .ok 0) ∧
    (12 < h → amPmAdjust .am h = .error (.incorrectValue "clock_time"
      ("please correct the time before AM. value: " ++ toString h))) ∧
    (h < 12 → amPmAdjust .am h = .ok h) ∧
    (∀ (m : Meridiem) (r : Int), m ≠ .plain → amPmAdjust m h = .ok r →
      0 ≤ r ∧ r ≤ 23) := by
  refine ⟨?_, ?_, ?_, ?_, ?_, ?_, ?_⟩
  · intro hlt
    simp [amPmAdjust, hlt]
  · intro heq
    subst heq
    simp [amPmAdjust]
  · intro hgt
    have h1 : ¬ h < 12 := by omega
    simp [amPmAdjust, h1, hgt]
  · intro heq
    subst heq
    simp [amPmAdjust]
  · intro hgt
    have h1 : h ≠ 12 := by omega
    simp [amPmAdjust, h1, hgt]
  · intro hlt
    have h1 : h ≠ 12 := by omega
    have h2 : ¬ 12 < h := by omega
    simp [amPmAdjust, h1, h2]
  · intro m r hm hr
    cases m with
    | pm =>
      simp only [amPmAdjust] at hr
      split_ifs at hr with h1 h2
      all_goals (injection hr with hr2; omega)
    | am =>
      simp only [amPmAdjust] at hr
      split_ifs at hr with h1 h2
      all_goals (injection hr with hr2; omega)
    | plain => exact absurd rfl hm

/-- Witness for C1 at the concrete hour 7: PM conversion yields 19, which
lies within 0–23. -/
theorem claim1_witness :
    amPmAdjust .pm 7 = .ok 19 ∧ (0 ≤ (19 : Int) ∧ (19 : Int) ≤ 23) :=
  ⟨(claim1_clock_conversion 7 (by decide)).1 (by decide),
   (claim1_clock_conversion 7 (by decide)).2.2.2.2.2.2 .pm 19 (by decide)
     ((claim1_clock_conversion 7 (by decide)).1 (by decide))⟩

/-- C3 (failing evaluation): on `"Monday to January"` the parse succeeds but
renders an empty month field — the output has seven space-separated
components one of which is the empty string, contradicting the claim that
every field is a nonempty form. (The day token pushes a Day entry, `"to"`
flips it to RangeEnd, and the month range-end branch writes nothing when no
range start was recorded, leaving the freshly cleared month field empty.) -/
theorem claim3_code_bug_empty_field :
    parseEnglish "Monday to January" = .ok "0 * * ?  MON *" ∧
    fieldsOf "0 * * ?  MON *" = ["0", "*", "*", "?", "", "MON", "*"] :=
  ⟨rfl, rfl⟩

/-- C4 (failing evaluation): with a RangeEnd top entry carrying
`frequency_start = 8` and `frequency_end = 5`, a bare minute (resp. hour)
unit word leaves the minute (resp. hour) field untouched — the source clears
`frequency_end` before testing it, so the `"{start}-{end}"` write is dead
code. The full parses of `"between 8 and 5 minutes"`/`"... hours"` therefore
render all-default output instead of an `8-5` range. -/
theorem claim4_code_bug_range_unit_dead_write :
    parseEnglish "between 8 and 5 minutes" = .ok "0 * * * * ? *" ∧
    parseEnglish "between 8 and 5 hours" = .ok "0 * * * * ? *" ∧
    minute_process "minutes"
        { record := {},
          stack := [{ owner := .rangeEnd, frequency_start := some 8,
                      frequency_end := some 5 }] } =
      { record := {},
        stack := [{ owner := .rangeEnd, frequency_start := some 8,
                    frequency_end := none, min := some ⟨some 8, some 5⟩ }] } ∧
    hour_process "hours"
        { record := {},
          stack := [{ owner := .rangeEnd, frequency_start := some 8,
                      frequency_end := some 5 }] } =
      { record := {},
        stack := [{ owner := .rangeEnd, frequency_start := some 8,
                    frequency_end := none, min := some ⟨some 8, some 5⟩ }] } :=
  ⟨rfl, rfl, rfl, rfl⟩

/-- C7 (failing evaluation): parsing is not case-insensitive. `"Noon"` is
tokenized and classified as a clock time by case-insensitive patterns, but
the noon/midnight override (`RE_NOON_MIDNIGHT` and `token == "noon"`) is
case-sensitive, so `"Noon"` parses as hour 0 while its lowercase form
parses as hour 12. -/
theorem claim7_code_bug_case_sensitivity :
    parseEnglish "Noon" = .ok "0 0 0 * * ? *" ∧
    parseEnglish (lowerStr "Noon") = .ok "0 0 12 * * ? *" ∧
    parseEnglish "Noon" ≠ parseEnglish (lowerStr "Noon") := by
  have h1 : parseEnglish "Noon" = .ok "0 0 0 * * ? *" := rfl
  have h2 : parseEnglish (lowerStr "Noon") = .ok "0 0 12 * * ? *" := rfl
  refine ⟨h1, h2, ?_⟩
  rw [h1, h2]
  intro heq
  injection heq with heq
  exact absurd heq (by decide)

/-- C10: processing a RangeEnd token on an empty context stack is a complete
no-op — it succeeds and leaves the record and the stack unchanged. -/
theorem claim10_range_end_empty_noop (token : String) (r : ScheduleRecord) :
    range_end_process token { record := r, stack := [] } =
      { record := r, stack := [] } ∧
    processKind .rangeEnd token { record := r, stack := [] } =
      .ok { record := r, stack := [] } :=
  ⟨rfl, rfl⟩

/-- Helper: `frequency_only::process` never touches the schedule record. -/
theorem frequency_only_record_eq (f : Int) (c : Cron) :
    (frequency_only_process f c).record = c.record := by
  unfold frequency_only_process
  split <;> (try split_ifs) <;> rfl

/-- Helper: `frequency_with::process` never touches the schedule record. -/
theorem frequency_with_record_eq (t : String) (c c2 : Cron)
    (h : frequency_with_process t c = .ok c2) : c2.record = c.record := by
  simp only [frequency_with_process] at h
  split_ifs at h
  split at h
  · exact absurd h (by simp)
  · split at h
    · split_ifs at h <;> (injection h with h; rw [← h])
    · injection h with h
      rw [← h]

/-- C9: processing a FrequencyOnly or FrequencyWith token never modifies any
of the seven schedule-record fields — whenever the dispatcher succeeds, the
record after processing equals the record before (only the stack changes);
consequently a bare number alone renders the all-default output. -/
theorem claim9_frequency_frame (token : String) (c c2 : Cron) :
    (processKind .frequencyOnly token c = .ok c2 → c2.record = c.record) ∧
    (processKind .frequencyWith token c = .ok c2 → c2.record = c.record) ∧
    parseEnglish "5" = .ok "0 * * * * ? *" := by
  refine ⟨?_, ?_, rfl⟩
  · intro h
    simp only [processKind] at h
    split at h
    · injection h with h
      rw [← h]
      exact frequency_only_record_eq _ c
    · exact absurd h (by simp)
  · intro h
    exact frequency_with_record_eq token c c2 h

/-- Witness for C9: a bare `"5"` token (FrequencyOnly) pushes a frequency
entry and leaves the record untouched. -/
theorem claim9_witness :
    ({ record := {},
       stack := [{ owner := Kind.frequencyOnly, frequency := some 5 }] } : Cron).record =
      ({} : Cron).record :=
  (claim9_frequency_frame "5" {}
    { record := {},
      stack := [{ owner := Kind.frequencyOnly, frequency := some 5 }] }).1 rfl

/-- Helper: hour extraction never raises `InvalidInput`. -/
theorem clockHourOf_ne_invalid (cs : List Char) :
    clockHourOf cs ≠ .error .invalidInput := by
  intro h
  unfold clockHourOf at h
  repeat' split at h
  all_goals simp_all

/-- Helper: minute extraction never raises `InvalidInput`. -/
theorem clockMinuteOf_ne_invalid (cs : List Char) :
    clockMinuteOf cs ≠ .error .invalidInput := by
  intro h
  unfold clockMinuteOf at h
  repeat' split at h
  all_goals simp_all

/-- Helper: the 12-hour correction never raises `InvalidInput`. -/
theorem amPmAdjust_ne_invalid (m : Meridiem) (h : Int) :
    amPmAdjust m h ≠ .error .invalidInput := by
  intro hc
  cases m <;> simp only [amPmAdjust] at hc <;> (try split_ifs at hc) <;> simp_all

/-- Helper: the clock-time extraction never raises `InvalidInput`. -/
theorem clockHourMinute_ne_invalid (t : String) :
    clockHourMinute t ≠ .error .invalidInput := by
  intro h
  unfold clockHourMinute at h
  split at h
  · rename_i e heq
    injection h with h
    rw [h] at heq
    exact clockHourOf_ne_invalid _ heq
  · split at h
    · rename_i e heq
      injection h with h
      rw [h] at heq
      exact clockMinuteOf_ne_invalid _ heq
    · split at h
      · rename_i e heq
        injection h with h
        rw [h] at heq
        exact amPmAdjust_ne_invalid _ _ heq
      · split_ifs at h

/-- Helper: `clock_time::process` never raises `InvalidInput` (after a
successful extraction every path succeeds). -/
theorem clock_time_ne_invalid (t : String) (c : Cron) :
    clock_time_process t c ≠ .error .invalidInput := by
  intro h
  unfold clock_time_process at h
  split at h
  · rename_i e heq
    injection h with h
    rw [h] at heq
    exact clockHourMinute_ne_invalid _ heq
  · repeat' split at h
    all_goals simp_all

/-- Helper: `frequency_with::process` never raises `InvalidInput`. -/
theorem frequency_with_ne_invalid (t : String) (c : Cron) :
    frequency_with_process t c ≠ .error .invalidInput := by
  intro h
  simp only [frequency_with_process] at h
  repeat' split at h
  all_goals simp_all

/-- Helper: `day::process` never raises `InvalidInput`. -/
theorem day_ne_invalid (t : String) (c : Cron) :
    day_process t c ≠ .error .invalidInput := by
  intro h
  simp only [day_process] at h
  repeat' split at h
  all_goals simp_all

/-- Helper: `month::process` never raises `InvalidInput`. -/
theorem month_ne_invalid (t : String) (c : Cron) :
    month_process t c ≠ .error .invalidInput := by
  intro h
  simp only [month_process] at h
  repeat' split at h
  all_goals simp_all

/-- Helper: `year::process` never raises `InvalidInput`. -/
theorem year_ne_invalid (t : String) (c : Cron) :
    year_process t c ≠ .error .invalidInput := by
  intro h
  simp only [year_process] at h
  repeat' split at h
  all_goals simp_all

/-- Helper: no per-kind processor ever raises `InvalidInput`. -/
theorem processKind_ne_invalid (k : Kind) (t : String) (c : Cron) :
    processKind k t c ≠ .error .invalidInput := by
  intro h
  cases k <;> simp only [processKind] at h
  case frequencyWith => exact frequency_with_ne_invalid t c h
  case frequencyOnly =>
    split at h
    · simp at h
    · simp only [Except.error.injEq] at h
      exact absurd h.symm (by simp)
  case clockTime => exact clock_time_ne_invalid t c h
  case day => exact day_ne_invalid t c h
  case month => exact month_ne_invalid t c h
  case year => exact year_ne_invalid t c h
  all_goals simp_all

/-- Helper: the token-folding loop never produces `InvalidInput`. -/
theorem processTokens_ne_invalid (ts : List String) (c : Cron) :
    processTokens ts c ≠ .error .invalidInput := by
  induction ts generalizing c with
  | nil => simp [processTokens]
  | cons t ts ih =>
    intro h
    simp only [processTokens] at h
    split at h
    · split at h
      · exact ih _ h
      · injection h with h
        subst h
        exact processKind_ne_invalid _ t c (by assumption)
    · exact ih _ h

/-- C2: the top-level parse (both `Cron::new` and `str_cron_syntax`) fails
with `InvalidInput` exactly when the scanner produces zero tokens — in
particular on the empty string — and `InvalidInput` arises in no other
situation. -/
theorem claim2_invalid_input_iff (s : String) :
    tokenizerRun "" = ([] : List String) ∧
    (cronNew s = .error .invalidInput ↔ tokenizerRun s = []) ∧
    ( str_cron_syntax s = .error .invalidInput ↔ tokenizerRun s = []) := by
  refine ⟨rfl, ⟨?_, ?_⟩, ⟨?_, ?_⟩⟩
  · intro h
    rcases hts : tokenizerRun s with _ | ⟨t, ts⟩
    · rfl
    · exfalso
      unfold cronNew at h
      rw [hts] at h
      simp only [List.isEmpty_cons, Bool.false_eq_true, if_false] at h
      exact processTokens_ne_invalid _ _ h
  · intro h
    unfold cronNew
    rw [h]
    rfl
  · intro h
    rcases hts : tokenizerRun s with _ | ⟨t, ts⟩
    · rfl
    · exfalso
      unfold str_cron_syntax to_string at h
      rw [hts] at h
      simp only [List.isEmpty_cons, Bool.false_eq_true, if_false] at h
      rcases hp : processTokens (t :: ts) {} with e | c
      · rw [hp] at h
        simp only [Except.map, Except.error.injEq] at h
        rw [h] at hp
        exact processTokens_ne_invalid _ _ hp
      · rw [hp] at h
        simp [Except.map] at h
  · intro h
    unfold str_cron_syntax
    rw [h]
    rfl

/-- C6: when the stack top is a RangeEnd entry whose recorded start hour
equals the hour extracted from the closing clock-time token, the processor
writes the symmetric range `"{h}-{h}"` into the hour field (and records the
pair on the entry), rather than a single degenerate value. -/
theorem claim6_equal_clock_range (tok : String) (c : Cron) (e : Stack)
    (rest : List Stack) (h m : Int) (x : Option Int)
    (hst : c.stack = e :: rest) (hown : e.owner = .rangeEnd)
    (hhr : e.hour = some ⟨some h, x⟩)
    (hparse : clockHourMinute tok = .ok (h, m)) :
    clock_time_process tok c =
      .ok { record := { c.record with hour := toString h ++ "-" ++ toString h },
            stack := { e with min := some ⟨some h, some h⟩ } :: rest } := by
  have hns : ¬ e.owner = Kind.rangeStart := by rw [hown]; simp
  simp only [clock_time_process, hparse, hst, hhr, hns, if_false, hown, if_pos]
  simp

/-- Witness for C6: closing `"between 8:00 am and 8:00 am"`-style context —
a RangeEnd entry with recorded start hour 8 and the token `"8:00 am"` —
writes `8-8`. -/
theorem claim6_witness :
    clock_time_process "8:00 am"
        { record := {},
          stack := [{ owner := .rangeEnd, hour := some ⟨some 8, none⟩ }] } =
      .ok { record := { hour := "8-8" },
            stack := [{ owner := .rangeEnd, hour := some ⟨some 8, none⟩,
                        min := some ⟨some 8, some 8⟩ }] } :=
  claim6_equal_clock_range "8:00 am"
    { record := {},
      stack := [{ owner := .rangeEnd, hour := some ⟨some 8, none⟩ }] }
    { owner := .rangeEnd, hour := some ⟨some 8, none⟩ } [] 8 0 none
    rfl rfl rfl rfl

/-- C8 (counterexample): a named-weekday token processed with a RangeStart,
RangeEnd, or OnlyOn entry on top of the stack returns successfully WITHOUT
pushing a Day entry: with a RangeStart top the stack still holds only the
RangeStart entry, and with a RangeEnd or OnlyOn top the stack ends empty. -/
theorem claim8_counterexample :
    (day_process "monday" { record := {}, stack := [{ owner := .rangeStart }] }).map
        (fun c => c.stack.map Stack.owner) = .ok [.rangeStart] ∧
    (day_process "monday" { record := {}, stack := [{ owner := .rangeEnd }] }).map
        (fun c => c.stack.map Stack.owner) = .ok [] ∧
    (day_process "monday" { record := {}, stack := [{ owner := .onlyOn }] }).map
        (fun c => c.stack.map Stack.owner) = .ok [] ∧
    Kind.day ∉ ([.rangeStart] : List Kind) :=
  ⟨rfl, rfl, rfl, by decide⟩

/-- C8 (amended): a successfully processed named-weekday token finishes by
pushing a Day entry carrying the resulting day_of_week string — provided
the stack top at entry is not RangeStart, RangeEnd, or OnlyOn (in those
three cases the processor returns early without pushing); in the pushing
cases the stack afterwards consists of exactly that Day entry. -/
theorem claim8_day_entry_push (tok : String) (c c2 : Cron)
    (hnotday : dayUnit tok = false)
    (htop : ∀ e, c.stack.head? = some e →
      e.owner ≠ .rangeStart ∧ e.owner ≠ .rangeEnd ∧ e.owner ≠ .onlyOn)
    (hok : day_process tok c = .ok c2) :
    c2.stack = [{ owner := .day, day_of_week := some c2.record.day_of_week }] := by
  simp only [day_process, hnotday, Bool.false_eq_true, if_false] at hok
  split at hok
  · exact absurd hok (by simp)
  · rcases hst : c.stack with _ | ⟨e, rest⟩
    · simp only [hst] at hok
      injection hok with hok
      rw [← hok]
    · simp only [hst] at hok
      obtain ⟨h1, h2, h3⟩ := htop e (by rw [hst]; rfl)
      rw [if_neg h1, if_neg h2, if_neg h3] at hok
      injection hok with hok
      rw [← hok]

/-- Witness for C8: processing `"monday"` on an empty stack pushes the Day
entry carrying `MON`. -/
theorem claim8_witness :
    ({ record := { day_of_month := "?", day_of_week := "MON" },
       stack := [{ owner := Kind.day, day_of_week := some "MON" }] } : Cron).stack =
      [{ owner := Kind.day, day_of_week := some "MON" }] :=
  claim8_day_entry_push "monday" {}
    { record := { day_of_month := "?", day_of_week := "MON" },
      stack := [{ owner := Kind.day, day_of_week := some "MON" }] }
    rfl (fun _ he => nomatch he) rfl

/-- Helper: a pattern is a prefix of itself followed by anything. -/
theorem csPrefixRest_append (p r : List Char) : csPrefixRest p (p ++ r) = some r := by
  induction p with
  | nil => rfl
  | cons a p ih => simp [csPrefixRest, ih]

/-- Helper: substring containment is preserved by prepending. -/
theorem containsSub_append_left (pat zs ys : List Char)
    (h : containsSub pat ys = true) : containsSub pat (zs ++ ys) = true := by
  induction zs with
  | nil => simpa using h
  | cons z zs ih => simp [containsSub, ih]

/-- Helper: a three-character case-sensitive prefix test is the conjunction
of the three character comparisons. -/
theorem cspr_exact (p1 p2 p3 x1 x2 x3 : Char) (r : List Char) :
    (csPrefixRest [p1, p2, p3] (x1 :: x2 :: x3 :: r)).isSome =
      (decide (x1 = p1) && decide (x2 = p2) && decide (x3 = p3)) := by
  simp only [csPrefixRest]
  split_ifs <;> simp_all

/-- Helper: a comma-free pattern cannot match across the comma one position
in. -/
theorem cspr_comma₁ (p1 p2 p3 x y : Char) (r : List Char) (h : p3 ≠ ',') :
    csPrefixRest [p1, p2, p3] (x :: y :: ',' :: r) = none := by
  simp only [csPrefixRest]
  split_ifs with ha hb hc
  · exact absurd hc.symm h
  all_goals rfl

/-- Helper: a comma-free pattern cannot match across the comma two positions
in. -/
theorem cspr_comma₂ (p1 p2 p3 x : Char) (r : List Char) (h : p2 ≠ ',') :
    csPrefixRest [p1, p2, p3] (x :: ',' :: r) = none := by
  simp only [csPrefixRest]
  split_ifs with ha hb
  · exact absurd hb.symm h
  all_goals rfl

/-- Helper: a comma-free pattern cannot start at a comma. -/
theorem cspr_comma₃ (p1 p2 p3 : Char) (r : List Char) (h : p1 ≠ ',') :
    csPrefixRest [p1, p2, p3] (',' :: r) = none := by
  simp only [csPrefixRest]
  split_ifs with ha
  · exact absurd ha.symm h
  all_goals rfl

/-- Helper: containment of a three-character comma-free code in a
`code ++ ","` piece decomposes into equality with the piece's code or
containment in the remainder. -/
theorem containsSub_piece (c1 c2 c3 a1 a2 a3 : Char) (rest : List Char)
    (h1 : c1 ≠ ',') (h2 : c2 ≠ ',') (h3 : c3 ≠ ',') :
    containsSub [c1, c2, c3] (a1 :: a2 :: a3 :: ',' :: rest) =
      ((decide (a1 = c1) && decide (a2 = c2) && decide (a3 = c3)) ||
        containsSub [c1, c2, c3] rest) := by
  conv_lhs => simp only [containsSub]
  rw [cspr_exact, cspr_comma₁ _ _ _ _ _ _ h3, cspr_comma₂ _ _ _ _ _ h2,
    cspr_comma₃ _ _ _ _ h1]
  simp [Bool.or_assoc]

/-- Helper: on a concatenation of `"X,"` pieces made of three-character
comma-free codes, substring containment of such a code is exactly list
membership. -/
theorem strContains_joinC (c : String) (l : List String)
    (hc3 : c.data.length = 3) (hcc : ',' ∉ c.data)
    (hl : ∀ x ∈ l, x.data.length = 3 ∧ ',' ∉ x.data) :
    strContains (joinC l) c = l.contains c := by
  obtain ⟨c1, c2, c3, hc⟩ := List.length_eq_three.mp hc3
  have h1 : c1 ≠ ',' := by intro h; apply hcc; rw [hc, h]; simp
  have h2 : c2 ≠ ',' := by intro h; apply hcc; rw [hc, h]; simp
  have h3 : c3 ≠ ',' := by intro h; apply hcc; rw [hc, h]; simp
  induction l with
  | nil => simp [strContains, joinC, containsSub, hc, csPrefixRest]
  | cons x l ih =>
    have hx := hl x (List.mem_cons_self x l)
    obtain ⟨a1, a2, a3, ha⟩ := List.length_eq_three.mp hx.1
    have hdata : (joinC (x :: l)).data = a1 :: a2 :: a3 :: ',' :: (joinC l).data := by
      simp [joinC, String.data_append, ha]
    have hpiece :
        containsSub c.data (joinC (x :: l)).data =
          ((decide (a1 = c1) && decide (a2 = c2) && decide (a3 = c3)) ||
            containsSub c.data (joinC l).data) := by
      rw [hdata, hc]
      exact containsSub_piece c1 c2 c3 a1 a2 a3 _ h1 h2 h3
    have hxc : (decide (a1 = c1) && decide (a2 = c2) && decide (a3 = c3)) = (c == x) := by
      have hiff : ((a1 = c1 ∧ a2 = c2) ∧ a3 = c3) ↔ c = x := by
        constructor
        · rintro ⟨⟨e1, e2⟩, e3⟩
          apply String.ext
          rw [hc, ha, e1, e2, e3]
        · intro he
          have : c.data = x.data := by rw [he]
          rw [hc, ha] at this
          injection this with i1 irest
          injection irest with i2 irest2
          injection irest2 with i3 _
          exact ⟨⟨i1.symm, i2.symm⟩, i3.symm⟩
      rw [Bool.eq_iff_iff]
      simpa only [Bool.and_eq_true, decide_eq_true_eq, beq_iff_eq] using hiff
    have hih := ih (fun y hy => hl y (List.mem_cons_of_mem x hy))
    simp only [strContains] at hih ⊢
    rw [hpiece, hxc, hih, List.contains_cons]

/-- Helper: appending one code to a piece list appends one piece. -/
theorem joinC_append_single (l : List String) (d : String) :
    joinC (l ++ [d]) = joinC l ++ d ++ "," := by
  induction l with
  | nil =>
    apply String.ext
    simp [joinC, String.data_append]
  | cons x l ih =>
    apply String.ext
    simp [joinC, String.data_append, ih]

/-- Helper: `joinC` turns list concatenation into string concatenation. -/
theorem joinC_append (l1 l2 : List String) : joinC (l1 ++ l2) = joinC l1 ++ joinC l2 := by
  induction l1 with
  | nil =>
    apply String.ext
    simp [joinC]
  | cons x l ih =>
    apply String.ext
    simp [joinC, String.data_append, ih]

/-- Helper: the day/month accumulation loop computes `addCodes` under the
`"X,"`-pieces representation. -/
theorem fold_addCodes (named canon : List String) :
    ∀ l : List String,
    (∀ x ∈ canon, x.data.length = 3 ∧ ',' ∉ x.data) →
    (∀ x ∈ l, x.data.length = 3 ∧ ',' ∉ x.data) →
    canon.foldl
      (fun acc d => if named.contains d && !(strContains acc d) then acc ++ d ++ "," else acc)
      (joinC l) = joinC (addCodes named canon l) := by
  induction canon with
  | nil => intro l _ _; rfl
  | cons d canon ih =>
    intro l hcanon hl
    have hd := hcanon d (List.mem_cons_self d canon)
    have hsc : strContains (joinC l) d = l.contains d :=
      strContains_joinC d l hd.1 hd.2 hl
    simp only [List.foldl_cons, addCodes, hsc]
    by_cases hcond : (named.contains d && !(l.contains d)) = true
    · rw [if_pos hcond, if_pos hcond, ← joinC_append_single]
      exact ih (l ++ [d]) (fun x hx => hcanon x (List.mem_cons_of_mem d hx))
        (fun x hx => by
          rcases List.mem_append.mp hx with hx2 | hx2
          · exact hl x hx2
          · rw [List.mem_singleton.mp hx2]; exact hd)
    · rw [if_neg hcond, if_neg hcond]
      exact ih l (fun x hx => hcanon x (List.mem_cons_of_mem d hx)) hl

/-- Helper: with pairwise-fresh canonical codes, `addCodes` is a filter. -/
theorem addCodes_eq (named : List String) :
    ∀ (canon l : List String), (∀ d ∈ canon, d ∉ l) → canon.Nodup →
    addCodes named canon l = l ++ canon.filter (fun d => named.contains d) := by
  intro canon
  induction canon with
  | nil => intro l _ _; simp [addCodes]
  | cons d canon ih =>
    intro l hdisj hnd
    have hdl : d ∉ l := hdisj d (List.mem_cons_self d canon)
    have hlc : l.contains d = false := by
      rw [Bool.eq_false_iff]
      intro hcontra
      exact hdl (by simpa using hcontra)
    simp only [addCodes, hlc, Bool.not_false, Bool.and_true]
    have hnd2 := (List.nodup_cons.mp hnd).2
    have hdnotin := (List.nodup_cons.mp hnd).1
    by_cases hn : named.contains d = true
    · rw [if_pos hn]
      rw [ih (l ++ [d])
        (fun x hx => by
          intro hmem
          rcases List.mem_append.mp hmem with hm | hm
          · exact hdisj x (List.mem_cons_of_mem d hx) hm
          · rw [List.mem_singleton.mp hm] at hx
            exact hdnotin hx)
        hnd2]
      have hmem : d ∈ named := by simpa using hn
      simp [List.filter_cons, hmem]
    · rw [if_neg hn]
      rw [ih l (fun x hx => hdisj x (List.mem_cons_of_mem d hx)) hnd2]
      have hmem : d ∉ named := by simpa using hn
      simp [List.filter_cons, hmem]

/-- Helper: the `WEEKEND` expansion loop computes `addCodesAll` on SAT and
SUN. -/
theorem weekend_fold (l : List String)
    (hl : ∀ x ∈ l, x.data.length = 3 ∧ ',' ∉ x.data) :
    ["SAT", "SUN"].foldl
      (fun acc d => if strContains acc d then acc else acc ++ d ++ ",") (joinC l)
      = joinC (addCodesAll ["SAT", "SUN"] l) := by
  have hS : ("SAT" : String).data.length = 3 ∧ ',' ∉ ("SAT" : String).data := by decide
  have hU : ("SUN" : String).data.length = 3 ∧ ',' ∉ ("SUN" : String).data := by decide
  have hlS : ∀ x ∈ l ++ ["SAT"], x.data.length = 3 ∧ ',' ∉ x.data := by
    intro x hx
    rcases List.mem_append.mp hx with hm | hm
    · exact hl x hm
    · rw [List.mem_singleton.mp hm]; exact hS
  simp only [List.foldl_cons, List.foldl_nil, addCodesAll]
  rw [strContains_joinC "SAT" l hS.1 hS.2 hl]
  by_cases h1 : l.contains "SAT" = true
  · rw [if_pos h1, if_pos h1, strContains_joinC "SUN" l hU.1 hU.2 hl]
    by_cases h2 : l.contains "SUN" = true
    · rw [if_pos h2, if_pos h2]
    · rw [if_neg h2, if_neg h2, joinC_append_single]
  · rw [if_neg h1, if_neg h1, ← joinC_append_single,
      strContains_joinC "SUN" (l ++ ["SAT"]) hU.1 hU.2 hlS]
    by_cases h2 : (l ++ ["SAT"]).contains "SUN" = true
    · rw [if_pos h2, if_pos h2]
    · rw [if_neg h2, if_neg h2]
      apply String.ext
      simp [joinC_append, joinC, String.data_append]

/-- Helper: `addCodesAll` on SAT, SUN appends the missing ones of the two. -/
theorem addCodesAll_SATSUN (l : List String) :
    addCodesAll ["SAT", "SUN"] l =
      l ++ (["SAT", "SUN"].filter fun d => !(l.contains d)) := by
  by_cases h1 : l.contains "SAT" = true <;> by_cases h2 : l.contains "SUN" = true <;>
    simp_all [addCodesAll, List.filter_cons]

/-- Helper: dropping leading commas from a comma-free list is the
identity. -/
theorem dropWhile_comma_not_mem (ys : List Char) (h : ',' ∉ ys) :
    ys.dropWhile (· = ',') = ys := by
  cases ys with
  | nil => rfl
  | cons a ys =>
    have ha : ¬ (a = ',') := fun he => h (he ▸ List.mem_cons_self a ys)
    simp [List.dropWhile_cons, ha]

/-- Helper: the data of a nonempty comma-join is nonempty. -/
theorem commaJoin_data_ne_nil (y : String) (l2 : List String) (hy : y.data ≠ []) :
    (commaJoin (y :: l2)).data ≠ [] := by
  cases l2 with
  | nil => simpa [commaJoin] using hy
  | cons z l2 =>
    simp [commaJoin, String.data_append]

/-- Helper: right-trimming commas ignores everything left of the last
non-comma segment. -/
theorem trimData_append_piece (u J : List Char)
    (hne : ¬ (J.reverse.dropWhile (· = ',')).isEmpty = true) :
    ((u ++ [','] ++ J).reverse.dropWhile (· = ',')).reverse =
      u ++ [','] ++ (J.reverse.dropWhile (· = ',')).reverse := by
  have h1 : (u ++ [','] ++ J).reverse = J.reverse ++ ([','] ++ u.reverse) := by simp
  rw [h1, List.dropWhile_append, if_neg hne]
  simp

/-- Helper: trimming the trailing comma of a piece list yields the
comma-join. -/
theorem trim_joinC (l : List String)
    (hl : ∀ x ∈ l, x.data ≠ [] ∧ ',' ∉ x.data) :
    trimEndCommas (joinC l) = commaJoin l := by
  induction l with
  | nil => rfl
  | cons x l ih =>
    have hx := hl x (List.mem_cons_self x l)
    have hxrev : ',' ∉ x.data.reverse := by
      intro hc
      exact hx.2 (List.mem_reverse.mp hc)
    cases l with
    | nil =>
      apply String.ext
      simp only [trimEndCommas, commaJoin, joinC, String.data_append]
      simp [List.dropWhile_cons, dropWhile_comma_not_mem _ hxrev]
    | cons y l2 =>
      have hih := ih (fun z hz => hl z (List.mem_cons_of_mem x hz))
      have hihdata : ((joinC (y :: l2)).data.reverse.dropWhile (· = ',')).reverse =
          (commaJoin (y :: l2)).data := by
        have : (trimEndCommas (joinC (y :: l2))).data = (commaJoin (y :: l2)).data := by
          rw [hih]
        simpa [trimEndCommas] using this
      have hy := hl y (List.mem_cons_of_mem x (List.mem_cons_self y l2))
      have hne : ¬ ((joinC (y :: l2)).data.reverse.dropWhile (· = ',')).isEmpty = true := by
        intro hemp
        have h0 : (joinC (y :: l2)).data.reverse.dropWhile (· = ',') = [] :=
          List.isEmpty_iff.mp hemp
        have h1 : (commaJoin (y :: l2)).data = [] := by
          rw [← hihdata, h0]
          rfl
        exact commaJoin_data_ne_nil y l2 hy.1 h1
      apply String.ext
      have hdata : (joinC (x :: y :: l2)).data =
          x.data ++ [','] ++ (joinC (y :: l2)).data := by
        have hstep : joinC (x :: y :: l2) = x ++ "," ++ joinC (y :: l2) := rfl
        rw [hstep]
        simp [String.data_append]
      simp only [trimEndCommas]
      rw [hdata, trimData_append_piece _ _ hne, hihdata]
      have hstep2 : commaJoin (x :: y :: l2) = x ++ "," ++ commaJoin (y :: l2) := rfl
      rw [hstep2]
      simp [String.data_append]

/-- Helper: code facts for the canonical day codes. -/
theorem week_days_code_facts :
    ∀ x ∈ WEEK_DAYS, x.data.length = 3 ∧ ',' ∉ x.data := by decide

/-- Helper: code facts for the canonical month codes. -/
theorem months_code_facts :
    ∀ x ∈ MONTHS, x.data.length = 3 ∧ ',' ∉ x.data := by decide

/-- Helper: the day-of-week string the code builds is the comma-join of
`dayListCanon`. -/
theorem buildDayString_eq (days : List String) :
    buildDayString days = commaJoin (dayListCanon days) := by
  simp only [buildDayString, dayListCanon]
  have hfold := fold_addCodes days WEEK_DAYS [] week_days_code_facts (by simp)
  have hbase : joinC ([] : List String) = "" := rfl
  rw [hbase] at hfold
  have hcodes := addCodes_eq days WEEK_DAYS [] (by simp) (by decide)
  rw [List.nil_append] at hcodes
  have hsubset : ∀ x ∈ WEEK_DAYS.filter (fun d => days.contains d),
      x.data.length = 3 ∧ ',' ∉ x.data :=
    fun x hx => week_days_code_facts x (List.mem_of_mem_filter hx)
  have hsubset2 : ∀ x ∈ WEEK_DAYS.filter (fun d => days.contains d),
      x.data ≠ [] ∧ ',' ∉ x.data := by
    intro x hx
    have h3 := hsubset x hx
    exact ⟨by intro hc; rw [hc] at h3; simp at h3, h3.2⟩
  by_cases hw : days.contains "WEEKEND" = true
  · rw [if_pos hw, if_pos hw, hfold, hcodes, weekend_fold _ hsubset,
      addCodesAll_SATSUN]
    apply trim_joinC
    intro x hx
    rcases List.mem_append.mp hx with hm | hm
    · exact hsubset2 x hm
    · have hx2 : x ∈ (["SAT", "SUN"] : List String) := List.mem_of_mem_filter hm
      have hfacts : ∀ y ∈ (["SAT", "SUN"] : List String), y.data ≠ [] ∧ ',' ∉ y.data := by
        decide
      exact hfacts x hx2
  · rw [if_neg hw, if_neg hw, hfold, hcodes, List.append_nil]
    exact trim_joinC _ hsubset2

/-- Helper: the month string the code builds is the comma-join of
`monthListCanon`. -/
theorem buildMonthString_eq (months : List String) :
    buildMonthString months = commaJoin (monthListCanon months) := by
  unfold buildMonthString monthListCanon
  have hfold := fold_addCodes months MONTHS [] months_code_facts (by simp)
  have hbase : joinC ([] : List String) = "" := rfl
  rw [hbase] at hfold
  have hcodes := addCodes_eq months MONTHS [] (by simp) (by decide)
  rw [List.nil_append] at hcodes
  rw [hfold, hcodes]
  apply trim_joinC
  intro x hx
  have h3 := months_code_facts x (List.mem_of_mem_filter hx)
  exact ⟨by intro hc; rw [hc] at h3; simp at h3, h3.2⟩

/-- Helper: the produced day list never holds duplicates. -/
theorem dayListCanon_nodup (days : List String) : (dayListCanon days).Nodup := by
  simp only [dayListCanon]
  apply List.Nodup.append
  · exact List.Nodup.filter _ (by decide)
  · by_cases hw : days.contains "WEEKEND" = true
    · rw [if_pos hw]
      exact List.Nodup.filter _ (by decide)
    · rw [if_neg hw]
      exact List.nodup_nil
  · intro a ha hb
    by_cases hw : days.contains "WEEKEND" = true
    · rw [if_pos hw] at hb
      have hcond := List.of_mem_filter hb
      simp only [Bool.not_eq_true'] at hcond
      have : a ∈ WEEK_DAYS.filter (fun d => days.contains d) := ha
      have hmem : (WEEK_DAYS.filter (fun d => days.contains d)).contains a = true := by
        simpa using this
      rw [hmem] at hcond
      exact absurd hcond (by simp)
    · rw [if_neg hw] at hb
      exact absurd hb (by simp)

/-- C5 (counterexample): the day list is not always canonical — for the
token `"sunday and weekend"` the code produces `SUN,SAT`, while the
deduplicated canonical MON..SUN ordering of the named days (weekend
expanded) is `SAT,SUN`. -/
theorem claim5_counterexample :
    (day_process "sunday and weekend" { record := {}, stack := [] }).map
        (fun c => c.record.day_of_week) = .ok "SUN,SAT" ∧
    commaJoin (dayListClaimed (extractWeekdays "sunday and weekend")) = "SAT,SUN" ∧
    ("SUN,SAT" : String) ≠ "SAT,SUN" :=
  ⟨rfl, rfl, by decide⟩

/-- C5 (amended): for a named-day token processed with no pending
range/only-on context, day_of_week is the comma-join of: the explicitly
named days, deduplicated, in canonical MON..SUN order, followed by the
`WEEKEND` expansion (SAT, SUN) restricted to days not already listed — a
duplicate-free list whose explicit part is canonical, though the appended
weekend part may follow an explicitly named SUN. For a named-month token
likewise, the month field is the comma-join of the named months,
deduplicated, in canonical JAN..DEC order (a sublist of JAN..DEC). -/
theorem claim5_canonical_lists :
    (∀ (tok : String) (c c2 : Cron),
      dayUnit tok = false →
      (∀ e, c.stack.head? = some e →
        e.owner ≠ .rangeStart ∧ e.owner ≠ .rangeEnd ∧ e.owner ≠ .onlyOn) →
      day_process tok c = .ok c2 →
      c2.record.day_of_week = commaJoin (dayListCanon (extractWeekdays tok)) ∧
      (dayListCanon (extractWeekdays tok)).Nodup ∧
      List.Sublist (WEEK_DAYS.filter fun d => (extractWeekdays tok).contains d) WEEK_DAYS) ∧
    (∀ (tok : String) (c c2 : Cron),
      monthUnit tok = false →
      (∀ e, c.stack.head? = some e → e.owner ≠ .rangeStart ∧ e.owner ≠ .rangeEnd) →
      month_process tok c = .ok c2 →
      c2.record.month = commaJoin (monthListCanon (extractMonths tok)) ∧
      (monthListCanon (extractMonths tok)).Nodup ∧
      List.Sublist (monthListCanon (extractMonths tok)) MONTHS) := by
  constructor
  · intro tok c c2 hnotday htop hok
    refine ⟨?_, dayListCanon_nodup _, List.filter_sublist _⟩
    simp only [day_process, hnotday, Bool.false_eq_true, if_false] at hok
    split at hok
    · exact absurd hok (by simp)
    · rcases hst : c.stack with _ | ⟨e, rest⟩
      · simp only [hst] at hok
        injection hok with hok
        rw [← hok]
        exact buildDayString_eq _
      · simp only [hst] at hok
        obtain ⟨h1, h2, h3⟩ := htop e (by rw [hst]; rfl)
        rw [if_neg h1, if_neg h2, if_neg h3] at hok
        injection hok with hok
        rw [← hok]
        exact buildDayString_eq _
  · intro tok c c2 hnotmonth htop hok
    refine ⟨?_, List.Nodup.filter _ (by decide), List.filter_sublist _⟩
    simp only [month_process, hnotmonth, Bool.false_eq_true, if_false] at hok
    split at hok
    · exact absurd hok (by simp)
    · rcases hst : c.stack with _ | ⟨e, rest⟩
      · simp only [hst] at hok
        injection hok with hok
        rw [← hok]
        exact buildMonthString_eq _
      · simp only [hst] at hok
        obtain ⟨h1, h2⟩ := htop e (by rw [hst]; rfl)
        by_cases hf : e.owner = .frequencyOnly ∨ e.owner = .frequencyWith
        · rw [if_pos hf] at hok
          injection hok with hok
          rw [← hok]
          exact buildMonthString_eq _
        · rw [if_neg hf, if_neg h1, if_neg h2] at hok
          injection hok with hok
          rw [← hok]
          exact buildMonthString_eq _

/-- Witness for C5: the token `"monday"` on an empty stack yields exactly
the canonical singleton list MON. -/
theorem claim5_witness :
    ("MON" : String) = commaJoin (dayListCanon (extractWeekdays "monday")) ∧
    (dayListCanon (extractWeekdays "monday")).Nodup ∧
    List.Sublist (WEEK_DAYS.filter fun d => (extractWeekdays "monday").contains d) WEEK_DAYS :=
  claim5_canonical_lists.1 "monday" {}
    { record := { day_of_month := "?", day_of_week := "MON" },
      stack := [{ owner := Kind.day, day_of_week := some "MON" }] }
    rfl (fun _ he => nomatch he) rfl

/-- Witness for C2: the empty string yields zero tokens and the parse fails
with `InvalidInput`. -/
theorem claim2_witness :
    cronNew "" = .error .invalidInput ∧ str_cron_syntax "" = .error .invalidInput :=
  ⟨(claim2_invalid_input_iff "").2.1.mpr rfl, (claim2_invalid_input_iff "").2.2.mpr rfl⟩
